import Mathlib

/-!
Verification of the opusmeta library (Opus comment metadata reader/writer).

The development shallowly embeds the Rust sources (src/lib.rs,
src/picture.rs, src/utils.rs).  Rust byte buffers and UTF-8 strings are
modelled as lists of natural numbers (each below 256); machine integer
conversions carry explicit bounds checks exactly where the source performs
a fallible try_into.  The host platform is modelled with a usize of at
least 32 bits, matching the comments in the source, so u32-to-usize
conversions always succeed.  The external ogg packet reader and writer are
modelled as a list of logical packets, and the external base64 codec
(standard alphabet with padding) is implemented concretely.
-/

set_option maxHeartbeats 1000000

namespace OpusMeta

/-- Decidable equality of results, used to evaluate the development on
concrete inputs. -/
instance {ε α : Type} [DecidableEq ε] [DecidableEq α] : DecidableEq (Except ε α) :=
  fun x y =>
    match x, y with
    | .ok a, .ok b =>
      if h : a = b then .isTrue (by rw [h]) else .isFalse (by simp [h])
    | .error a, .error b =>
      if h : a = b then .isTrue (by rw [h]) else .isFalse (by simp [h])
    | .ok _, .error _ => .isFalse (by simp)
    | .error _, .ok _ => .isFalse (by simp)

/-- Byte sequences are lists of naturals; well-formed ones stay below 256. -/
abbrev Bytes := List Nat

/-- Every element of the list is a byte value. -/
def allBytes (l : Bytes) : Bool := l.all (fun b => b < 256)

/-- Bytes of an ASCII string literal, used for the wire constants. -/
def strBytes (s : String) : Bytes := s.toList.map Char.toNat

/-- Model of str make_ascii_lowercase. -/
def makeAsciiLowercase (l : Bytes) : Bytes :=
  l.map (fun b => if 65 ≤ b ∧ b ≤ 90 then b + 32 else b)

/-- Big-endian byte encoding of a u32 (u32 to_be_bytes). -/
def u32BE (n : Nat) : Bytes :=
  [n / 16777216 % 256, n / 65536 % 256, n / 256 % 256, n % 256]

/-- Little-endian byte encoding of a u32 (u32 to_le_bytes). -/
def u32LE (n : Nat) : Bytes :=
  [n % 256, n / 256 % 256, n / 65536 % 256, n / 16777216 % 256]

/-- u32 from_be_bytes on a four byte buffer. -/
def beU32 : Bytes → Nat
  | [a, b, c, d] => ((a * 256 + b) * 256 + c) * 256 + d
  | _ => 0

/-- u32 from_le_bytes on a four byte buffer. -/
def leU32 : Bytes → Nat
  | [a, b, c, d] => ((d * 256 + c) * 256 + b) * 256 + a
  | _ => 0

/-- Model of read_exact on an in-memory cursor: consume n bytes, or fail
(the caller maps the failure to the unexpected-eof io error). -/
def readExact (n : Nat) (buf : Bytes) : Option (Bytes × Bytes) :=
  if n ≤ buf.length then some (buf.take n, buf.drop n) else none

/-- A UTF-8 continuation byte. -/
def isCont (b : Nat) : Bool := 128 ≤ b && b ≤ 191

/-- UTF-8 validity of a byte list, as checked by String from_utf8: rejects
overlong forms, surrogates and code points above 0x10FFFF. -/
def validUtf8 : Bytes → Bool
  | [] => true
  | b :: rest =>
    if b ≤ 127 then validUtf8 rest
    else if 194 ≤ b && b ≤ 223 then
      match rest with
      | c1 :: rest1 => isCont c1 && validUtf8 rest1
      | [] => false
    else if b = 224 then
      match rest with
      | c1 :: c2 :: rest2 => (160 ≤ c1 && c1 ≤ 191) && isCont c2 && validUtf8 rest2
      | _ => false
    else if 225 ≤ b && b ≤ 236 then
      match rest with
      | c1 :: c2 :: rest2 => isCont c1 && isCont c2 && validUtf8 rest2
      | _ => false
    else if b = 237 then
      match rest with
      | c1 :: c2 :: rest2 => (128 ≤ c1 && c1 ≤ 159) && isCont c2 && validUtf8 rest2
      | _ => false
    else if 238 ≤ b && b ≤ 239 then
      match rest with
      | c1 :: c2 :: rest2 => isCont c1 && isCont c2 && validUtf8 rest2
      | _ => false
    else if b = 240 then
      match rest with
      | c1 :: c2 :: c3 :: rest3 =>
        (144 ≤ c1 && c1 ≤ 191) && isCont c2 && isCont c3 && validUtf8 rest3
      | _ => false
    else if 241 ≤ b && b ≤ 243 then
      match rest with
      | c1 :: c2 :: c3 :: rest3 => isCont c1 && isCont c2 && isCont c3 && validUtf8 rest3
      | _ => false
    else if b = 244 then
      match rest with
      | c1 :: c2 :: c3 :: rest3 =>
        (128 ≤ c1 && c1 ≤ 143) && isCont c2 && isCont c3 && validUtf8 rest3
      | _ => false
    else false

/-- The standard base64 alphabet: six bit value to ASCII code. -/
def b64Char (n : Nat) : Nat :=
  if n < 26 then 65 + n
  else if n < 52 then 71 + n
  else if n < 62 then n - 4
  else if n = 62 then 43 else 47

/-- Inverse of the standard base64 alphabet. -/
def b64Index (c : Nat) : Option Nat :=
  if 65 ≤ c ∧ c ≤ 90 then some (c - 65)
  else if 97 ≤ c ∧ c ≤ 122 then some (c - 71)
  else if 48 ≤ c ∧ c ≤ 57 then some (c + 4)
  else if c = 43 then some 62
  else if c = 47 then some 63
  else none

/-- Standard (padded) base64 encoding of a byte list, as produced by the
external base64 engine used by the crate. -/
def base64Encode : Bytes → Bytes
  | [] => []
  | [a] => [b64Char (a / 4), b64Char (a % 4 * 16), 61, 61]
  | [a, b] => [b64Char (a / 4), b64Char (a % 4 * 16 + b / 16), b64Char (b % 16 * 4), 61]
  | a :: b :: c :: rest =>
    b64Char (a / 4) :: b64Char (a % 4 * 16 + b / 16) ::
      b64Char (b % 16 * 4 + c / 64) :: b64Char (c % 64) :: base64Encode rest

/-- Errors that could be raised while encoding or decoding a Picture. -/
inductive PictureError
  | InvalidPictureType
  | MimeTooLong
  | DescriptionTooLong
  | DataTooLong
  | Base64DecodeError
  | NoMimeType
deriving DecidableEq

/-- Standard (padded) base64 decoding; rejects characters outside the
alphabet, non-canonical padding and set trailing bits. -/
def base64Decode : Bytes → Except PictureError Bytes
  | [] => .ok []
  | c1 :: c2 :: c3 :: c4 :: rest =>
    match b64Index c1, b64Index c2 with
    | some n1, some n2 =>
      if c3 = 61 then
        if c4 = 61 ∧ rest = [] then
          if n2 % 16 = 0 then .ok [n1 * 4 + n2 / 16] else .error .Base64DecodeError
        else .error .Base64DecodeError
      else
        match b64Index c3 with
        | some n3 =>
          if c4 = 61 then
            if rest = [] then
              if n3 % 4 = 0 then .ok [n1 * 4 + n2 / 16, n2 % 16 * 16 + n3 / 4]
              else .error .Base64DecodeError
            else .error .Base64DecodeError
          else
            match b64Index c4 with
            | some n4 =>
              match base64Decode rest with
              | .ok tl => .ok ((n1 * 4 + n2 / 16) :: (n2 % 16 * 16 + n3 / 4) :: (n3 % 4 * 64 + n4) :: tl)
              | .error e => .error e
            | none => .error .Base64DecodeError
        | none => .error .Base64DecodeError
    | _, _ => .error .Base64DecodeError
  | _ => .error .Base64DecodeError

/-- Type of picture, according to the APIC picture standard (repr u32). -/
inductive PictureType
  | Other
  | FileIcon
  | OtherIcon
  | CoverFront
  | CoverBack
  | LeafletPage
  | Media
  | LeadArtist
  | Artist
  | Conductor
  | BandOrchestra
  | Composter
  | Lyricist
  | RecordingLocation
  | DuringRecording
  | DuringPerformance
  | MovieCapture
  | BrightColouredFish
  | Illustration
  | BandLogo
  | PublisherLogo
deriving DecidableEq

/-- The wire ordinal of a picture type (the repr u32 discriminant). -/
def PictureType.toU32 : PictureType → Nat
  | .Other => 0
  | .FileIcon => 1
  | .OtherIcon => 2
  | .CoverFront => 3
  | .CoverBack => 4
  | .LeafletPage => 5
  | .Media => 6
  | .LeadArtist => 7
  | .Artist => 8
  | .Conductor => 9
  | .BandOrchestra => 10
  | .Composter => 11
  | .Lyricist => 12
  | .RecordingLocation => 13
  | .DuringRecording => 14
  | .DuringPerformance => 15
  | .MovieCapture => 16
  | .BrightColouredFish => 17
  | .Illustration => 18
  | .BandLogo => 19
  | .PublisherLogo => 20

/-- The enumerator with a given discriminant (the transmute in from_u32 is
only reached for inputs at most 20, where this mapping is exact). -/
def PictureType.ofOrdinal : Nat → PictureType
  | 0 => .Other
  | 1 => .FileIcon
  | 2 => .OtherIcon
  | 3 => .CoverFront
  | 4 => .CoverBack
  | 5 => .LeafletPage
  | 6 => .Media
  | 7 => .LeadArtist
  | 8 => .Artist
  | 9 => .Conductor
  | 10 => .BandOrchestra
  | 11 => .Composter
  | 12 => .Lyricist
  | 13 => .RecordingLocation
  | 14 => .DuringRecording
  | 15 => .DuringPerformance
  | 16 => .MovieCapture
  | 17 => .BrightColouredFish
  | 18 => .Illustration
  | 19 => .BandLogo
  | _ => .PublisherLogo

/-- PictureType from_u32: out-of-range ordinals are an error, in-range
ordinals transmute to the enumerator with that discriminant. -/
def PictureType.from_u32 (num : Nat) : Except PictureError PictureType :=
  if num > 20 then .error .InvalidPictureType
  else .ok (PictureType.ofOrdinal num)

/-- Crate error type (payloads other than the malformed comment line and
the picture error kind are dropped by the embedding). -/
inductive Error
  | ReadError
  | NotOpus
  | MissingPacket
  | DataError
  | MalformedComment (line : Bytes)
  | UTFError
  | TooBigError
  | PictureError (e : PictureError)
  | PlatformError
deriving DecidableEq

/-- Stores picture data (Rust strings become UTF-8 byte lists). -/
structure Picture where
  picture_type : PictureType
  mime_type : Bytes
  description : Bytes
  data : Bytes
deriving DecidableEq

/-- Representation invariant of the Rust Picture struct: the two string
fields hold valid UTF-8 byte values and the data holds byte values. -/
def Picture.WF (p : Picture) : Prop :=
  validUtf8 p.mime_type = true ∧ allBytes p.mime_type = true ∧
    validUtf8 p.description = true ∧ allBytes p.description = true ∧
    allBytes p.data = true

/-- Field byte lengths representable as u32, as demanded by the encoder. -/
def Picture.SizeOK (p : Picture) : Prop :=
  p.mime_type.length < 4294967296 ∧ p.description.length < 4294967296 ∧
    p.data.length < 4294967296

instance (p : Picture) : Decidable p.WF :=
  inferInstanceAs (Decidable (validUtf8 p.mime_type = true ∧ allBytes p.mime_type = true ∧
    validUtf8 p.description = true ∧ allBytes p.description = true ∧
    allBytes p.data = true))

instance (p : Picture) : Decidable p.SizeOK :=
  inferInstanceAs (Decidable (p.mime_type.length < 4294967296 ∧
    p.description.length < 4294967296 ∧ p.data.length < 4294967296))

/-- Picture from_bytes: decode the FLAC picture block from a byte slice. -/
def Picture.from_bytes (data : Bytes) : Except Error Picture :=
  match readExact 4 data with
  | none => .error .DataError
  | some (tb, r1) =>
    match PictureType.from_u32 (beU32 tb) with
    | .error e => .error (.PictureError e)
    | .ok picture_type =>
      match readExact 4 r1 with
      | none => .error .DataError
      | some (mlb, r2) =>
        match readExact (beU32 mlb) r2 with
        | none => .error .DataError
        | some (mime_type, r3) =>
          if validUtf8 mime_type then
            match readExact 4 r3 with
            | none => .error .DataError
            | some (dlb, r4) =>
              match readExact (beU32 dlb) r4 with
              | none => .error .DataError
              | some (description, r5) =>
                if validUtf8 description then
                  match readExact 4 (r5.drop 16) with
                  | none => .error .DataError
                  | some (lb, r6) =>
                    match readExact (beU32 lb) r6 with
                    | none => .error .DataError
                    | some (d, _) => .ok ⟨picture_type, mime_type, description, d⟩
                else .error .UTFError
          else .error .UTFError

/-- Picture to_bytes: encode the FLAC picture block; each length field is
checked against the u32 budget in source order. -/
def Picture.to_bytes (p : Picture) : Except PictureError Bytes :=
  if 4294967296 ≤ p.mime_type.length then .error .MimeTooLong
  else if 4294967296 ≤ p.description.length then .error .DescriptionTooLong
  else if 4294967296 ≤ p.data.length then .error .DataTooLong
  else .ok (u32BE p.picture_type.toU32 ++ u32BE p.mime_type.length ++ p.mime_type ++
    u32BE p.description.length ++ p.description ++ List.replicate 16 0 ++
    u32BE p.data.length ++ p.data)

/-- Picture to_base64: encode then wrap in base64. -/
def Picture.to_base64 (p : Picture) : Except Error Bytes :=
  match p.to_bytes with
  | .error e => .error (.PictureError e)
  | .ok bytes => .ok (base64Encode bytes)

/-- Picture from_base64: unwrap base64 then decode. -/
def Picture.from_base64 (data : Bytes) : Except Error Picture :=
  match base64Decode data with
  | .error e => .error (.PictureError e)
  | .ok bytes => Picture.from_bytes bytes

/-- A lowercase string wrapper (utils.rs LowercaseString). -/
structure LowercaseString where
  val : Bytes
deriving DecidableEq

/-- LowercaseString from_string: lowercases the buffer in place. -/
def LowercaseString.from_string (s : Bytes) : LowercaseString :=
  ⟨makeAsciiLowercase s⟩

/-- The reserved comment key holding encoded pictures. -/
def PICTURE_BLOCK_TAG : Bytes := strBytes "metadata_block_picture"

/-- The in-memory comment multimap: HashMap String (Vec String), modelled
as an association list with unique keys (iteration order is irrelevant to
every claim). -/
abbrev Comments := List (Bytes × List Bytes)

/-- HashMap get. -/
def mapGet (m : Comments) (k : Bytes) : Option (List Bytes) :=
  match m with
  | [] => none
  | kv :: rest => if kv.1 = k then some kv.2 else mapGet rest k

/-- Whether a key is present. -/
def hasKey (m : Comments) (k : Bytes) : Bool :=
  m.any (fun kv => kv.1 = k)

/-- Apply a function to the value list stored under a key (models in-place
mutation through entry or get_mut). -/
def updateVal (m : Comments) (k : Bytes) (f : List Bytes → List Bytes) : Comments :=
  m.map (fun kv => if kv.1 = k then (kv.1, f kv.2) else kv)

/-- HashMap entry or_insert push: append one value under a key. -/
def entryPush (m : Comments) (k : Bytes) (v : Bytes) : Comments :=
  if hasKey m k then updateVal m k (fun vs => vs ++ [v]) else m ++ [(k, [v])]

/-- HashMap entry and_modify append or_insert: append many values. -/
def entryAppend (m : Comments) (k : Bytes) (vs : List Bytes) : Comments :=
  if hasKey m k then updateVal m k (fun old => old ++ vs) else m ++ [(k, vs)]

/-- HashMap insert: replace the binding of a key. -/
def mapInsert (m : Comments) (k : Bytes) (vs : List Bytes) : Comments :=
  if hasKey m k then updateVal m k (fun _ => vs) else m ++ [(k, vs)]

/-- HashMap remove. -/
def mapRemove (m : Comments) (k : Bytes) : Comments :=
  m.filter (fun kv => decide (kv.1 ≠ k))

/-- Stores Opus comments: one vendor string plus the comment multimap. -/
structure Tag where
  vendor : Bytes
  comments : Comments
deriving DecidableEq

/-- Tag new: build the map from (key, value) pairs, lowercasing keys. -/
def Tag.new (vendor : Bytes) (comments : List (Bytes × Bytes)) : Tag :=
  { vendor := vendor
    comments := comments.foldl
      (fun m kv => entryPush m (makeAsciiLowercase kv.1) kv.2) [] }

/-- Tag add_one. -/
def Tag.add_one (t : Tag) (tag : LowercaseString) (value : Bytes) : Tag :=
  { t with comments := entryPush t.comments tag.val value }

/-- Tag add_many. -/
def Tag.add_many (t : Tag) (tag : LowercaseString) (values : List Bytes) : Tag :=
  { t with comments := entryAppend t.comments tag.val values }

/-- Tag get. -/
def Tag.get (t : Tag) (tag : LowercaseString) : Option (List Bytes) :=
  mapGet t.comments tag.val

/-- Tag get_one. -/
def Tag.get_one (t : Tag) (tag : LowercaseString) : Option Bytes :=
  (mapGet t.comments tag.val).bind List.head?

/-- Tag remove_entries: returns the removed values and the new tag. -/
def Tag.remove_entries (t : Tag) (tag : LowercaseString) : Option (List Bytes) × Tag :=
  (mapGet t.comments tag.val, { t with comments := mapRemove t.comments tag.val })

/-- Tag set_entries: returns the replaced values and the new tag. -/
def Tag.set_entries (t : Tag) (tag : LowercaseString) (values : List Bytes) :
    Option (List Bytes) × Tag :=
  (mapGet t.comments tag.val, { t with comments := mapInsert t.comments tag.val values })

/-- The scan inside remove_picture_type: find the first stored value that
decodes to a picture of the wanted type, drop it, keep everything else. -/
def removeFirstPic (pt : PictureType) : List Bytes → Option (Picture × List Bytes)
  | [] => none
  | d :: rest =>
    match Picture.from_base64 d with
    | .ok pic =>
      if pic.picture_type = pt then some (pic, rest)
      else (removeFirstPic pt rest).map (fun q => (q.1, d :: q.2))
    | .error _ => (removeFirstPic pt rest).map (fun q => (q.1, d :: q.2))

/-- Tag remove_picture_type: the Result is always ok (kept for signature
fidelity); the mutated tag is returned alongside. -/
def Tag.remove_picture_type (t : Tag) (pt : PictureType) :
    Except Error (Option Picture) × Tag :=
  match mapGet t.comments PICTURE_BLOCK_TAG with
  | none => (.ok none, t)
  | some pictures =>
    match removeFirstPic pt pictures with
    | none => (.ok none, t)
    | some (pic, rest) =>
      (.ok (some pic),
        { t with comments := updateVal t.comments PICTURE_BLOCK_TAG (fun _ => rest) })

/-- Tag add_picture: remove any same-typed picture, then append the base64
encoding under the reserved key.  On an encoding error the removal has
already mutated the tag, which the model makes explicit. -/
def Tag.add_picture (t : Tag) (p : Picture) : Except Error Unit × Tag :=
  match t.remove_picture_type p.picture_type with
  | (.error e, t1) => (.error e, t1)
  | (.ok _, t1) =>
    match p.to_base64 with
    | .error e => (.error e, t1)
    | .ok data =>
      (.ok (), t1.add_one (LowercaseString.from_string PICTURE_BLOCK_TAG) data)

/-- The scan inside get_picture_type. -/
def findFirstPic (pt : PictureType) : List Bytes → Option Picture
  | [] => none
  | d :: rest =>
    match Picture.from_base64 d with
    | .ok pic => if pic.picture_type = pt then some pic else findFirstPic pt rest
    | .error _ => findFirstPic pt rest

/-- Tag get_picture_type. -/
def Tag.get_picture_type (t : Tag) (pt : PictureType) : Option Picture :=
  (mapGet t.comments PICTURE_BLOCK_TAG).bind (findFirstPic pt)

/-- Tag has_pictures. -/
def Tag.has_pictures (t : Tag) : Bool :=
  hasKey t.comments PICTURE_BLOCK_TAG

/-- Tag pictures: decode every stored value, silently skipping failures. -/
def Tag.pictures (t : Tag) : List Picture :=
  match mapGet t.comments PICTURE_BLOCK_TAG with
  | none => []
  | some vals => vals.filterMap (fun d => (Picture.from_base64 d).toOption)

/-- A logical ogg packet as delivered by the external packet reader. -/
structure Packet where
  data : Bytes
  stream_serial : Nat
  absgp_page : Nat
  last_in_stream : Bool
  last_in_page : Bool

/-- Packet boundary marker passed to the external packet writer. -/
inductive PacketWriteEndInfo
  | NormalPacket
  | EndPage
  | EndStream
deriving DecidableEq

/-- get_end_info: carry each packet's own boundary marker forward. -/
def get_end_info (p : Packet) : PacketWriteEndInfo :=
  if p.last_in_stream then .EndStream
  else if p.last_in_page then .EndPage
  else .NormalPacket

/-- One write_packet call recorded against the external packet writer. -/
structure WrittenPacket where
  data : Bytes
  stream_serial : Nat
  end_info : PacketWriteEndInfo
  absgp_page : Nat

/-- The magic signature of the first packet. -/
def opusHeadMagic : Bytes := strBytes "OpusHead"

/-- The magic signature of the comment header packet. -/
def opusTagsMagic : Bytes := strBytes "OpusTags"

/-- The comment parsing loop of read_from: read count length-prefixed
UTF-8 lines and split each on the first equals sign. -/
def splitOnceEq (l : Bytes) : Option (Bytes × Bytes) :=
  match l with
  | [] => none
  | b :: rest =>
    if b = 61 then some ([], rest)
    else (splitOnceEq rest).map (fun p => (b :: p.1, p.2))

/-- The comment reading loop of read_from. -/
def parseComments : Nat → Bytes → Except Error (List (Bytes × Bytes))
  | 0, _ => .ok []
  | n + 1, buf =>
    match readExact 4 buf with
    | none => .error .DataError
    | some (lb, r1) =>
      match readExact (leU32 lb) r1 with
      | none => .error .DataError
      | some (c, r2) =>
        if validUtf8 c then
          match splitOnceEq c with
          | none => .error (.MalformedComment c)
          | some pair =>
            match parseComments n r2 with
            | .ok tl => .ok (pair :: tl)
            | .error e => .error e
        else .error .UTFError

/-- Parsing of the comment header packet payload after the 8 byte magic
skip: vendor, comment count, then the comment loop. -/
def parseCommentHeader (buf : Bytes) : Except Error Tag :=
  match readExact 4 buf with
  | none => .error .DataError
  | some (vlb, b1) =>
    match readExact (leU32 vlb) b1 with
    | none => .error .DataError
    | some (vendor, b2) =>
      if validUtf8 vendor then
        match readExact 4 b2 with
        | none => .error .DataError
        | some (ccb, b3) =>
          match parseComments (leU32 ccb) b3 with
          | .ok comments => .ok (Tag.new vendor comments)
          | .error e => .error e
      else .error .UTFError

/-- Tag read_from over the packet sequence produced by the external ogg
reader: packet one must carry the OpusHead magic, packet two is the
comment header whose first 8 bytes are skipped unchecked. -/
def Tag.read_from (packets : List Packet) : Except Error Tag :=
  match packets with
  | [] => .error .MissingPacket
  | first :: rest =>
    if opusHeadMagic.isPrefixOf first.data then
      match rest with
      | [] => .error .MissingPacket
      | header :: _ => parseCommentHeader (header.data.drop 8)
    else .error .NotOpus

/-- The tag serialization loop of to_packet_data. -/
def encodeTags : List Bytes → Except Error Bytes
  | [] => .ok []
  | tag :: rest =>
    if 4294967296 ≤ tag.length then .error .TooBigError
    else
      match encodeTags rest with
      | .ok tl => .ok (u32LE tag.length ++ tag ++ tl)
      | .error e => .error e

/-- Tag to_packet_data: serialize the comment header payload. -/
def Tag.to_packet_data (t : Tag) : Except Error Bytes :=
  if 4294967296 ≤ t.vendor.length then .error .TooBigError
  else
    let formatted := t.comments.flatMap (fun kv => kv.2.map (fun v => kv.1 ++ [61] ++ v))
    if 4294967296 ≤ formatted.length then .error .TooBigError
    else
      match encodeTags formatted with
      | .ok tl =>
        .ok (opusTagsMagic ++ u32LE t.vendor.length ++ t.vendor ++
          u32LE formatted.length ++ tl)
      | .error e => .error e

/-- Tag write_to over the packet sequence of the target: copy packet one,
replace packet two by the serialized tag forced to end its page, copy the
remaining packets, then atomically replace the target contents with the
assembled in-memory stream.  The external ogg page assembly is abstracted
by the assemble parameter; the result pairs the outcome with the final
contents of the target. -/
def Tag.write_to (assemble : List WrittenPacket → Bytes) (t : Tag)
    (packets : List Packet) (contents : Bytes) : Except Error Unit × Bytes :=
  match packets with
  | [] => (.error .MissingPacket, contents)
  | first :: rest =>
    match rest with
    | [] => (.error .MissingPacket, contents)
    | header :: remaining =>
      match t.to_packet_data with
      | .error e => (.error e, contents)
      | .ok new_pack_data =>
        let w1 : WrittenPacket :=
          ⟨first.data, first.stream_serial, get_end_info first, first.absgp_page⟩
        let w2 : WrittenPacket :=
          ⟨new_pack_data, header.stream_serial, .EndPage, header.absgp_page⟩
        let ws := remaining.map
          (fun p => (⟨p.data, p.stream_serial, get_end_info p, p.absgp_page⟩ : WrittenPacket))
        (.ok (), assemble (w1 :: w2 :: ws))

/-- The public mutating operations on a Tag named by the invariant claim. -/
inductive TagOp
  | add_one (k : LowercaseString) (v : Bytes)
  | add_many (k : LowercaseString) (vs : List Bytes)
  | set_entries (k : LowercaseString) (vs : List Bytes)
  | remove_entries (k : LowercaseString)
  | add_picture (p : Picture)
  | remove_picture_type (pt : PictureType)

/-- Apply one public operation, keeping the mutated tag. -/
def Tag.applyOp (t : Tag) : TagOp → Tag
  | .add_one k v => t.add_one k v
  | .add_many k vs => t.add_many k vs
  | .set_entries k vs => (t.set_entries k vs).2
  | .remove_entries k => (t.remove_entries k).2
  | .add_picture p => (t.add_picture p).2
  | .remove_picture_type pt => (t.remove_picture_type pt).2

/-- No key of the map is bound to an empty value list. -/
def noEmptyVals (m : Comments) : Bool :=
  m.all (fun kv => !kv.2.isEmpty)

/-- No key other than the reserved picture key is bound to an empty list. -/
def noEmptyValsExceptPictures (m : Comments) : Bool :=
  m.all (fun kv => decide (kv.1 = PICTURE_BLOCK_TAG) || !kv.2.isEmpty)

/-- Operations whose supplied value list is nonempty (no restriction on
the operations that do not take a value list). -/
def TagOp.nonEmptyInput : TagOp → Prop
  | .add_many _ vs => vs ≠ []
  | .set_entries _ vs => vs ≠ []
  | _ => True

instance : DecidablePred TagOp.nonEmptyInput := by
  intro op
  cases op <;> simp [TagOp.nonEmptyInput] <;> infer_instance

/-- Whether a stored comment value decodes to a picture of the given type. -/
def isPicT (pt : PictureType) (d : Bytes) : Bool :=
  match Picture.from_base64 d with
  | .ok pic => decide (pic.picture_type = pt)
  | .error _ => false

/-- The list of values stored under the reserved picture key. -/
def picList (t : Tag) : List Bytes :=
  (mapGet t.comments PICTURE_BLOCK_TAG).getD []

/-- The value list under the picture key after one removal scan. -/
def dropFirstPic (pt : PictureType) (l : List Bytes) : List Bytes :=
  match removeFirstPic pt l with
  | none => l
  | some q => q.2

/-- The serialized form of a comment list inside the comment header:
each line is length-prefixed with a little-endian u32. -/
def encodeComments (cs : List Bytes) : Bytes :=
  cs.flatMap (fun c => u32LE c.length ++ c)

/-- The tag/value pair a comment line splits into (junk when no equals
sign is present; the parser errors out in that case). -/
def splitPair (c : Bytes) : Bytes × Bytes :=
  (splitOnceEq c).getD ([], [])

/-! Helper lemmas. -/

theorem beU32_u32BE (n : Nat) (h : n < 4294967296) : beU32 (u32BE n) = n := by
  simp only [beU32, u32BE]
  omega

theorem leU32_u32LE (n : Nat) (h : n < 4294967296) : leU32 (u32LE n) = n := by
  simp only [leU32, u32LE]
  omega

theorem u32BE_length (n : Nat) : (u32BE n).length = 4 := rfl

theorem u32LE_length (n : Nat) : (u32LE n).length = 4 := rfl

theorem readExact_append (n : Nat) (xs ys : Bytes) (h : xs.length = n) :
    readExact n (xs ++ ys) = some (xs, ys) := by
  simp only [readExact, List.length_append]
  rw [if_pos (by omega), List.take_left' h, List.drop_left' h]

theorem readExact_self (xs : Bytes) : readExact xs.length xs = some (xs, []) := by
  simpa using readExact_append xs.length xs [] rfl

theorem b64Index_b64Char : ∀ n, n < 64 → b64Index (b64Char n) = some n := by
  decide

theorem b64Char_ne_pad : ∀ n, n < 64 → b64Char n ≠ 61 := by
  decide

theorem base64_roundtrip (l : Bytes) (h : allBytes l = true) :
    base64Decode (base64Encode l) = .ok l := by
  induction l using base64Encode.induct with
  | case1 => rfl
  | case2 a =>
    have ha : a < 256 := by simpa [allBytes] using h
    have e1 : b64Index (b64Char (a / 4)) = some (a / 4) := b64Index_b64Char _ (by omega)
    have e2 : b64Index (b64Char (a % 4 * 16)) = some (a % 4 * 16) :=
      b64Index_b64Char _ (by omega)
    have hm : a % 4 * 16 % 16 = 0 := by omega
    have hv : a / 4 * 4 + a % 4 * 16 / 16 = a := by omega
    simp [base64Encode, base64Decode, e1, e2, hm, hv]
    omega
  | case3 a b =>
    have ha : a < 256 ∧ b < 256 := by simpa [allBytes] using h
    have e1 : b64Index (b64Char (a / 4)) = some (a / 4) := b64Index_b64Char _ (by omega)
    have e2 : b64Index (b64Char (a % 4 * 16 + b / 16)) = some (a % 4 * 16 + b / 16) :=
      b64Index_b64Char _ (by omega)
    have e3 : b64Index (b64Char (b % 16 * 4)) = some (b % 16 * 4) :=
      b64Index_b64Char _ (by omega)
    have ne3 : b64Char (b % 16 * 4) ≠ 61 := b64Char_ne_pad _ (by omega)
    have hm : b % 16 * 4 % 4 = 0 := by omega
    have hv1 : a / 4 * 4 + (a % 4 * 16 + b / 16) / 16 = a := by omega
    have hv2 : (a % 4 * 16 + b / 16) % 16 * 16 + b % 16 * 4 / 4 = b := by omega
    simp [base64Encode, base64Decode, e1, e2, e3, ne3, hm, hv1, hv2]
    omega
  | case4 a b c rest ih =>
    have hs : (a < 256 ∧ b < 256 ∧ c < 256) ∧ allBytes rest = true := by
      simpa [allBytes, and_assoc] using h
    obtain ⟨⟨ha, hb, hc⟩, hrest⟩ := hs
    have e1 : b64Index (b64Char (a / 4)) = some (a / 4) := b64Index_b64Char _ (by omega)
    have e2 : b64Index (b64Char (a % 4 * 16 + b / 16)) = some (a % 4 * 16 + b / 16) :=
      b64Index_b64Char _ (by omega)
    have e3 : b64Index (b64Char (b % 16 * 4 + c / 64)) = some (b % 16 * 4 + c / 64) :=
      b64Index_b64Char _ (by omega)
    have e4 : b64Index (b64Char (c % 64)) = some (c % 64) := b64Index_b64Char _ (by omega)
    have ne3 : b64Char (b % 16 * 4 + c / 64) ≠ 61 := b64Char_ne_pad _ (by omega)
    have ne4 : b64Char (c % 64) ≠ 61 := b64Char_ne_pad _ (by omega)
    have hv1 : a / 4 * 4 + (a % 4 * 16 + b / 16) / 16 = a := by omega
    have hv2 : (a % 4 * 16 + b / 16) % 16 * 16 + (b % 16 * 4 + c / 64) / 4 = b := by omega
    have hv3 : (b % 16 * 4 + c / 64) % 4 * 64 + c % 64 = c := by omega
    simp [base64Encode, base64Decode, e1, e2, e3, e4, ne3, ne4, ih hrest, hv1, hv2, hv3]
    try omega

theorem from_u32_toU32 (pt : PictureType) : PictureType.from_u32 pt.toU32 = .ok pt := by
  cases pt <;> rfl

theorem toU32_le (pt : PictureType) : pt.toU32 ≤ 20 := by
  cases pt <;> simp [PictureType.toU32]

/-- Decoding the picture layout with arbitrary reserved bytes recovers the
fields: the 16 reserved bytes are skipped without validation. -/
theorem from_bytes_layout (pt : PictureType) (mime desc data reserved : Bytes)
    (hm : mime.length < 4294967296) (hd : desc.length < 4294967296)
    (hdata : data.length < 4294967296)
    (hum : validUtf8 mime = true) (hud : validUtf8 desc = true)
    (hres : reserved.length = 16) :
    Picture.from_bytes (u32BE pt.toU32 ++ (u32BE mime.length ++ (mime ++
      (u32BE desc.length ++ (desc ++ (reserved ++ (u32BE data.length ++ data))))))) =
      .ok ⟨pt, mime, desc, data⟩ := by
  have e1 := readExact_append 4 (u32BE pt.toU32)
    (u32BE mime.length ++ (mime ++ (u32BE desc.length ++ (desc ++
      (reserved ++ (u32BE data.length ++ data)))))) rfl
  have e2 := readExact_append 4 (u32BE mime.length)
    (mime ++ (u32BE desc.length ++ (desc ++ (reserved ++ (u32BE data.length ++ data))))) rfl
  have e3 := readExact_append mime.length mime
    (u32BE desc.length ++ (desc ++ (reserved ++ (u32BE data.length ++ data)))) rfl
  have e4 := readExact_append 4 (u32BE desc.length)
    (desc ++ (reserved ++ (u32BE data.length ++ data))) rfl
  have e5 := readExact_append desc.length desc
    (reserved ++ (u32BE data.length ++ data)) rfl
  have e6 : (reserved ++ (u32BE data.length ++ data)).drop 16 =
      u32BE data.length ++ data := List.drop_left' hres
  have e7 := readExact_append 4 (u32BE data.length) data rfl
  have e8 := readExact_self data
  have b1 : beU32 (u32BE pt.toU32) = pt.toU32 :=
    beU32_u32BE _ (by have := toU32_le pt; omega)
  have b2 : beU32 (u32BE mime.length) = mime.length := beU32_u32BE _ hm
  have b3 : beU32 (u32BE desc.length) = desc.length := beU32_u32BE _ hd
  have b4 : beU32 (u32BE data.length) = data.length := beU32_u32BE _ hdata
  simp only [Picture.from_bytes, e1, b1, from_u32_toU32, e2, b2, e3, hum, if_true,
    e4, b3, e5, hud, e6, e7, b4, e8]

/-- When to_bytes succeeds the fields fit the u32 budget and the output is
exactly the documented concatenation. -/
theorem to_bytes_eq_ok (p : Picture) (bs : Bytes) (h : p.to_bytes = .ok bs) :
    p.SizeOK ∧ bs = u32BE p.picture_type.toU32 ++ u32BE p.mime_type.length ++
      p.mime_type ++ u32BE p.description.length ++ p.description ++
      List.replicate 16 0 ++ u32BE p.data.length ++ p.data := by
  rw [Picture.to_bytes] at h
  split_ifs at h with h1 h2 h3
  exact ⟨⟨by omega, by omega, by omega⟩, by injection h with h; exact h.symm⟩

/-- The encoder succeeds whenever the fields fit the u32 budget. -/
theorem to_bytes_ok (p : Picture) (hsz : p.SizeOK) :
    p.to_bytes = .ok (u32BE p.picture_type.toU32 ++ u32BE p.mime_type.length ++
      p.mime_type ++ u32BE p.description.length ++ p.description ++
      List.replicate 16 0 ++ u32BE p.data.length ++ p.data) := by
  obtain ⟨h1, h2, h3⟩ := hsz
  rw [Picture.to_bytes, if_neg (by omega), if_neg (by omega), if_neg (by omega)]

theorem allBytes_append (a b : Bytes) :
    allBytes (a ++ b) = (allBytes a && allBytes b) := by
  simp [allBytes]

theorem allBytes_u32BE (n : Nat) : allBytes (u32BE n) = true := by
  simp [allBytes, u32BE]
  omega

/-- The encoded picture layout consists of byte values. -/
theorem to_bytes_allBytes (p : Picture) (bs : Bytes) (hwf : p.WF)
    (h : p.to_bytes = .ok bs) : allBytes bs = true := by
  obtain ⟨-, hm, -, hd, hdata⟩ := hwf
  obtain ⟨-, rfl⟩ := to_bytes_eq_ok p bs h
  simp only [allBytes_append, allBytes_u32BE, hm, hd, hdata, Bool.and_self,
    Bool.and_true, Bool.true_and]
  simp [allBytes]

/-- Decoding the encoding recovers the picture (raw byte form). -/
theorem from_bytes_to_bytes (p : Picture) (bs : Bytes) (hwf : p.WF)
    (h : p.to_bytes = .ok bs) : Picture.from_bytes bs = .ok p := by
  obtain ⟨hm, -, hd, -, -⟩ := hwf
  obtain ⟨⟨s1, s2, s3⟩, rfl⟩ := to_bytes_eq_ok p bs h
  have := from_bytes_layout p.picture_type p.mime_type p.description p.data
    (List.replicate 16 0) s1 s2 s3 hm hd (by simp)
  simpa [List.append_assoc] using this

/-- Decoding the base64 encoding recovers the picture. -/
theorem from_base64_to_base64 (p : Picture) (s : Bytes) (hwf : p.WF)
    (h : p.to_base64 = .ok s) : Picture.from_base64 s = .ok p := by
  rw [Picture.to_base64] at h
  rcases he : p.to_bytes with e | bs
  · rw [he] at h; exact absurd h (by simp)
  · rw [he] at h
    injection h with h
    subst h
    rw [Picture.from_base64, base64_roundtrip bs (to_bytes_allBytes p bs hwf he)]
    exact from_bytes_to_bytes p bs hwf he

/-- to_base64 succeeds whenever the fields fit the u32 budget. -/
theorem to_base64_ok (p : Picture) (hsz : p.SizeOK) :
    ∃ s, p.to_base64 = .ok s := by
  rw [Picture.to_base64, to_bytes_ok p hsz]
  exact ⟨_, rfl⟩

theorem splitOnceEq_none (c : Bytes) (h : ¬ 61 ∈ c) : splitOnceEq c = none := by
  induction c with
  | nil => rfl
  | cons b rest ih =>
    have hb : ¬ b = 61 := by intro hb; exact h (by simp [hb])
    rw [splitOnceEq, if_neg hb, ih (fun hm => h (by simp [hm]))]
    rfl

theorem splitOnceEq_mem (c : Bytes) (h : 61 ∈ c) : ∃ pr, splitOnceEq c = some pr := by
  induction c with
  | nil => simp at h
  | cons b rest ih =>
    by_cases hb : b = 61
    · exact ⟨([], rest), by rw [splitOnceEq, if_pos hb]⟩
    · have hm : 61 ∈ rest := by
        rcases List.mem_cons.mp h with h' | h'
        · exact absurd h'.symm hb
        · exact h'
      obtain ⟨pr, hpr⟩ := ih hm
      exact ⟨(b :: pr.1, pr.2), by rw [splitOnceEq, if_neg hb, hpr]; rfl⟩

theorem encodeComments_cons (c : Bytes) (cs : List Bytes) :
    encodeComments (c :: cs) = u32LE c.length ++ (c ++ encodeComments cs) := by
  simp [encodeComments]

theorem parseComments_ok (cs : List Bytes)
    (h : ∀ c ∈ cs, c.length < 4294967296 ∧ validUtf8 c = true ∧ 61 ∈ c) :
    parseComments cs.length (encodeComments cs) = .ok (cs.map splitPair) := by
  induction cs with
  | nil => rfl
  | cons c cs ih =>
    obtain ⟨hlen, hutf, hmem⟩ := h c (by simp)
    obtain ⟨pr, hpr⟩ := splitOnceEq_mem c hmem
    have e1 : readExact 4 (u32LE c.length ++ (c ++ encodeComments cs)) =
        some (u32LE c.length, c ++ encodeComments cs) := readExact_append _ _ _ rfl
    have e2 : readExact c.length (c ++ encodeComments cs) =
        some (c, encodeComments cs) := readExact_append _ _ _ rfl
    have ih' := ih (fun x hx => h x (by simp [hx]))
    rw [List.length_cons, encodeComments_cons]
    simp only [parseComments, e1, leU32_u32LE _ hlen, e2, hutf, if_true, hpr, ih']
    simp [splitPair, hpr]

theorem parseComments_bad (good : List Bytes) (bad : Bytes) (rest2 : List Bytes)
    (hg : ∀ c ∈ good, c.length < 4294967296 ∧ validUtf8 c = true ∧ 61 ∈ c)
    (hbl : bad.length < 4294967296) (hbu : validUtf8 bad = true) (hb : ¬ 61 ∈ bad) :
    parseComments (good ++ bad :: rest2).length (encodeComments (good ++ bad :: rest2)) =
      .error (.MalformedComment bad) := by
  induction good with
  | nil =>
    have e1 : readExact 4 (u32LE bad.length ++ (bad ++ encodeComments rest2)) =
        some (u32LE bad.length, bad ++ encodeComments rest2) := readExact_append _ _ _ rfl
    have e2 : readExact bad.length (bad ++ encodeComments rest2) =
        some (bad, encodeComments rest2) := readExact_append _ _ _ rfl
    rw [List.nil_append, List.length_cons, encodeComments_cons]
    simp only [parseComments, e1, leU32_u32LE _ hbl, e2, hbu, if_true,
      splitOnceEq_none bad hb]
  | cons c good ih =>
    obtain ⟨hlen, hutf, hmem⟩ := hg c (by simp)
    obtain ⟨pr, hpr⟩ := splitOnceEq_mem c hmem
    have e1 : readExact 4 (u32LE c.length ++ (c ++ encodeComments (good ++ bad :: rest2))) =
        some (u32LE c.length, c ++ encodeComments (good ++ bad :: rest2)) :=
      readExact_append _ _ _ rfl
    have e2 : readExact c.length (c ++ encodeComments (good ++ bad :: rest2)) =
        some (c, encodeComments (good ++ bad :: rest2)) := readExact_append _ _ _ rfl
    have ih' := ih (fun x hx => hg x (by simp [hx]))
    rw [List.cons_append, List.length_cons, encodeComments_cons]
    simp only [parseComments, e1, leU32_u32LE _ hlen, e2, hutf, if_true, hpr]
    rw [List.length_append, List.length_cons] at ih'
    simp only [List.length_append, List.length_cons, ih']

theorem opusTagsMagic_length : opusTagsMagic.length = 8 := by decide

theorem parseCommentHeader_encode (vendor : Bytes) (cs : List Bytes)
    (hv : validUtf8 vendor = true) (hvl : vendor.length < 4294967296)
    (hc : cs.length < 4294967296) :
    parseCommentHeader
        (u32LE vendor.length ++ (vendor ++ (u32LE cs.length ++ encodeComments cs))) =
      match parseComments cs.length (encodeComments cs) with
      | .ok comments => .ok (Tag.new vendor comments)
      | .error e => .error e := by
  have e1 : readExact 4
      (u32LE vendor.length ++ (vendor ++ (u32LE cs.length ++ encodeComments cs))) =
      some (u32LE vendor.length, vendor ++ (u32LE cs.length ++ encodeComments cs)) :=
    readExact_append _ _ _ rfl
  have e2 : readExact vendor.length (vendor ++ (u32LE cs.length ++ encodeComments cs)) =
      some (vendor, u32LE cs.length ++ encodeComments cs) := readExact_append _ _ _ rfl
  have e3 : readExact 4 (u32LE cs.length ++ encodeComments cs) =
      some (u32LE cs.length, encodeComments cs) := readExact_append _ _ _ rfl
  simp only [parseCommentHeader, e1, leU32_u32LE _ hvl, e2, hv, if_true, e3,
    leU32_u32LE _ hc]

theorem mem_updateVal (m : Comments) (k : Bytes) (f : List Bytes → List Bytes)
    (kv : Bytes × List Bytes) (h : kv ∈ updateVal m k f) :
    kv ∈ m ∨ ∃ vs, kv = (k, f vs) := by
  obtain ⟨kv', hmem, hkv⟩ := List.mem_map.mp h
  by_cases hk : kv'.1 = k
  · right
    exact ⟨kv'.2, by rw [← hkv, if_pos hk, hk]⟩
  · left
    rwa [← hkv, if_neg hk]

theorem nepb_iff (m : Comments) : noEmptyValsExceptPictures m = true ↔
    ∀ kv ∈ m, kv.1 = PICTURE_BLOCK_TAG ∨ kv.2 ≠ [] := by
  simp [noEmptyValsExceptPictures, List.all_eq_true]

theorem entryPush_nonempty (m : Comments) (k : Bytes) (v : Bytes)
    (h : ∀ kv ∈ m, kv.2 ≠ []) : ∀ kv ∈ entryPush m k v, kv.2 ≠ [] := by
  intro kv hkv
  rw [entryPush] at hkv
  by_cases hk : hasKey m k
  · rw [if_pos hk] at hkv
    rcases mem_updateVal m k _ kv hkv with hm | ⟨vs, rfl⟩
    · exact h kv hm
    · simp
  · rw [if_neg hk] at hkv
    rcases List.mem_append.mp hkv with hm | hm
    · exact h kv hm
    · simp at hm
      simp [hm]

theorem new_nonempty_aux (cs : List (Bytes × Bytes)) (m : Comments)
    (h : ∀ kv ∈ m, kv.2 ≠ []) :
    ∀ kv ∈ cs.foldl (fun m kv => entryPush m (makeAsciiLowercase kv.1) kv.2) m, kv.2 ≠ [] := by
  induction cs generalizing m with
  | nil => exact h
  | cons c cs ih =>
    exact ih _ (entryPush_nonempty _ _ _ h)

theorem new_nonempty (v : Bytes) (cs : List (Bytes × Bytes)) :
    ∀ kv ∈ (Tag.new v cs).comments, kv.2 ≠ [] := by
  exact new_nonempty_aux cs [] (by simp)

theorem nep_entryPush (m : Comments) (k : Bytes) (v : Bytes)
    (h : ∀ kv ∈ m, kv.1 = PICTURE_BLOCK_TAG ∨ kv.2 ≠ []) :
    ∀ kv ∈ entryPush m k v, kv.1 = PICTURE_BLOCK_TAG ∨ kv.2 ≠ [] := by
  intro kv hkv
  rw [entryPush] at hkv
  by_cases hk : hasKey m k
  · rw [if_pos hk] at hkv
    rcases mem_updateVal m k _ kv hkv with hm | ⟨vs, rfl⟩
    · exact h kv hm
    · right; simp
  · rw [if_neg hk] at hkv
    rcases List.mem_append.mp hkv with hm | hm
    · exact h kv hm
    · simp at hm
      right; simp [hm]

theorem nep_entryAppend (m : Comments) (k : Bytes) (vs : List Bytes) (hvs : vs ≠ [])
    (h : ∀ kv ∈ m, kv.1 = PICTURE_BLOCK_TAG ∨ kv.2 ≠ []) :
    ∀ kv ∈ entryAppend m k vs, kv.1 = PICTURE_BLOCK_TAG ∨ kv.2 ≠ [] := by
  intro kv hkv
  rw [entryAppend] at hkv
  by_cases hk : hasKey m k
  · rw [if_pos hk] at hkv
    rcases mem_updateVal m k _ kv hkv with hm | ⟨old, rfl⟩
    · exact h kv hm
    · right; simp [hvs]
  · rw [if_neg hk] at hkv
    rcases List.mem_append.mp hkv with hm | hm
    · exact h kv hm
    · simp at hm
      right; simp [hm, hvs]

theorem nep_mapInsert (m : Comments) (k : Bytes) (vs : List Bytes) (hvs : vs ≠ [])
    (h : ∀ kv ∈ m, kv.1 = PICTURE_BLOCK_TAG ∨ kv.2 ≠ []) :
    ∀ kv ∈ mapInsert m k vs, kv.1 = PICTURE_BLOCK_TAG ∨ kv.2 ≠ [] := by
  intro kv hkv
  rw [mapInsert] at hkv
  by_cases hk : hasKey m k
  · rw [if_pos hk] at hkv
    rcases mem_updateVal m k _ kv hkv with hm | ⟨old, rfl⟩
    · exact h kv hm
    · right; simp [hvs]
  · rw [if_neg hk] at hkv
    rcases List.mem_append.mp hkv with hm | hm
    · exact h kv hm
    · simp at hm
      right; simp [hm, hvs]

theorem nep_mapRemove (m : Comments) (k : Bytes)
    (h : ∀ kv ∈ m, kv.1 = PICTURE_BLOCK_TAG ∨ kv.2 ≠ []) :
    ∀ kv ∈ mapRemove m k, kv.1 = PICTURE_BLOCK_TAG ∨ kv.2 ≠ [] := by
  intro kv hkv
  exact h kv (List.mem_of_mem_filter hkv)

theorem nep_updateVal_pic (m : Comments) (f : List Bytes → List Bytes)
    (h : ∀ kv ∈ m, kv.1 = PICTURE_BLOCK_TAG ∨ kv.2 ≠ []) :
    ∀ kv ∈ updateVal m PICTURE_BLOCK_TAG f, kv.1 = PICTURE_BLOCK_TAG ∨ kv.2 ≠ [] := by
  intro kv hkv
  rcases mem_updateVal m _ f kv hkv with hm | ⟨vs, rfl⟩
  · exact h kv hm
  · left; rfl

theorem nep_remove_picture_type (t : Tag) (pt : PictureType)
    (h : ∀ kv ∈ t.comments, kv.1 = PICTURE_BLOCK_TAG ∨ kv.2 ≠ []) :
    ∀ kv ∈ (t.remove_picture_type pt).2.comments,
      kv.1 = PICTURE_BLOCK_TAG ∨ kv.2 ≠ [] := by
  rcases hg : mapGet t.comments PICTURE_BLOCK_TAG with - | pictures
  · simp only [Tag.remove_picture_type, hg]
    exact h
  · rcases hr : removeFirstPic pt pictures with - | ⟨pic, rest⟩
    · simp only [Tag.remove_picture_type, hg, hr]
      exact h
    · simp only [Tag.remove_picture_type, hg, hr]
      exact nep_updateVal_pic t.comments _ h

theorem nep_add_picture (t : Tag) (p : Picture)
    (h : ∀ kv ∈ t.comments, kv.1 = PICTURE_BLOCK_TAG ∨ kv.2 ≠ []) :
    ∀ kv ∈ (t.add_picture p).2.comments, kv.1 = PICTURE_BLOCK_TAG ∨ kv.2 ≠ [] := by
  have h1 := nep_remove_picture_type t p.picture_type h
  rcases hrm : t.remove_picture_type p.picture_type with ⟨r, t1⟩
  rw [hrm] at h1
  rcases r with e | o
  · simp only [Tag.add_picture, hrm]
    exact h1
  · rcases hb : p.to_base64 with e | data
    · simp only [Tag.add_picture, hrm, hb]
      exact h1
    · simp only [Tag.add_picture, hrm, hb]
      exact nep_entryPush t1.comments _ _ h1

theorem nep_applyOp (t : Tag) (op : TagOp) (hop : op.nonEmptyInput)
    (h : ∀ kv ∈ t.comments, kv.1 = PICTURE_BLOCK_TAG ∨ kv.2 ≠ []) :
    ∀ kv ∈ (t.applyOp op).comments, kv.1 = PICTURE_BLOCK_TAG ∨ kv.2 ≠ [] := by
  cases op with
  | add_one k v => exact nep_entryPush t.comments k.val v h
  | add_many k vs => exact nep_entryAppend t.comments k.val vs hop h
  | set_entries k vs => exact nep_mapInsert t.comments k.val vs hop h
  | remove_entries k => exact nep_mapRemove t.comments k.val h
  | add_picture p => exact nep_add_picture t p h
  | remove_picture_type pt => exact nep_remove_picture_type t pt h

theorem nep_foldl (ops : List TagOp) (t : Tag)
    (hops : ∀ op ∈ ops, op.nonEmptyInput)
    (h : ∀ kv ∈ t.comments, kv.1 = PICTURE_BLOCK_TAG ∨ kv.2 ≠ []) :
    ∀ kv ∈ (ops.foldl Tag.applyOp t).comments, kv.1 = PICTURE_BLOCK_TAG ∨ kv.2 ≠ [] := by
  induction ops generalizing t with
  | nil => exact h
  | cons op ops ih =>
    exact ih _ (fun o ho => hops o (by simp [ho]))
      (nep_applyOp t op (hops op (by simp)) h)

theorem mapGet_cons (kv : Bytes × List Bytes) (m : Comments) (k : Bytes) :
    mapGet (kv :: m) k = if kv.1 = k then some kv.2 else mapGet m k := rfl

theorem updateVal_cons (kv : Bytes × List Bytes) (m : Comments) (k : Bytes)
    (f : List Bytes → List Bytes) :
    updateVal (kv :: m) k f =
      (if kv.1 = k then (kv.1, f kv.2) else kv) :: updateVal m k f := rfl

theorem mapGet_updateVal (m : Comments) (k : Bytes) (f : List Bytes → List Bytes) :
    mapGet (updateVal m k f) k = (mapGet m k).map f := by
  induction m with
  | nil => rfl
  | cons kv m ih =>
    rw [updateVal_cons, mapGet_cons, mapGet_cons]
    by_cases hk : kv.1 = k
    · simp [hk]
    · simp only [if_neg hk, ih]

theorem hasKey_false_mapGet (m : Comments) (k : Bytes) (h : hasKey m k = false) :
    mapGet m k = none := by
  induction m with
  | nil => rfl
  | cons kv m ih =>
    simp only [hasKey, List.any_cons, Bool.or_eq_false_iff] at h
    rw [mapGet, if_neg (by simpa using h.1)]
    exact ih (by simpa [hasKey] using h.2)

theorem hasKey_true_mapGet (m : Comments) (k : Bytes) (h : hasKey m k = true) :
    ∃ vs, mapGet m k = some vs := by
  induction m with
  | nil => simp [hasKey] at h
  | cons kv m ih =>
    by_cases hk : kv.1 = k
    · exact ⟨kv.2, by rw [mapGet, if_pos hk]⟩
    · simp only [hasKey, List.any_cons, Bool.or_eq_true] at h
      rcases h with h | h
      · exact absurd (by simpa using h) hk
      · obtain ⟨vs, hvs⟩ := ih h
        exact ⟨vs, by rw [mapGet, if_neg hk]; exact hvs⟩

theorem mapGet_append_none (m m2 : Comments) (k : Bytes) (h : mapGet m k = none) :
    mapGet (m ++ m2) k = mapGet m2 k := by
  induction m with
  | nil => rfl
  | cons kv m ih =>
    rw [mapGet] at h
    by_cases hk : kv.1 = k
    · rw [if_pos hk] at h; exact absurd h (by simp)
    · rw [if_neg hk] at h
      rw [List.cons_append, mapGet, if_neg hk]
      exact ih h

theorem pictureKeyLower : makeAsciiLowercase PICTURE_BLOCK_TAG = PICTURE_BLOCK_TAG := by
  decide

theorem picList_add_one_pic (t : Tag) (v : Bytes) :
    picList (t.add_one (LowercaseString.from_string PICTURE_BLOCK_TAG) v) =
      picList t ++ [v] := by
  rcases hk : hasKey t.comments PICTURE_BLOCK_TAG with - | -
  · have hg := hasKey_false_mapGet _ _ hk
    rw [picList, Tag.add_one, LowercaseString.from_string, pictureKeyLower, entryPush,
      if_neg (by simp [hk])]
    rw [mapGet_append_none _ _ _ hg]
    rw [picList, hg]
    rfl
  · obtain ⟨vs, hvs⟩ := hasKey_true_mapGet _ _ hk
    rw [picList, Tag.add_one, LowercaseString.from_string, pictureKeyLower, entryPush,
      if_pos (by simp [hk])]
    rw [mapGet_updateVal, hvs]
    rw [picList, hvs]
    rfl

theorem remove_picture_type_fst (t : Tag) (pt : PictureType) :
    (t.remove_picture_type pt).1 = .ok ((removeFirstPic pt (picList t)).map Prod.fst) := by
  rcases hg : mapGet t.comments PICTURE_BLOCK_TAG with - | pictures
  · simp [Tag.remove_picture_type, hg, picList, removeFirstPic]
  · rcases hr : removeFirstPic pt pictures with - | ⟨pic, rest⟩
    · simp [Tag.remove_picture_type, hg, hr, picList]
    · simp [Tag.remove_picture_type, hg, hr, picList]

theorem remove_picture_type_picList (t : Tag) (pt : PictureType) :
    picList ((t.remove_picture_type pt).2) = dropFirstPic pt (picList t) := by
  rcases hg : mapGet t.comments PICTURE_BLOCK_TAG with - | pictures
  · simp [Tag.remove_picture_type, hg, picList, dropFirstPic, removeFirstPic]
  · rcases hr : removeFirstPic pt pictures with - | ⟨pic, rest⟩
    · simp [Tag.remove_picture_type, hg, hr, picList, dropFirstPic]
    · simp only [Tag.remove_picture_type, hg, hr, picList]
      rw [mapGet_updateVal, hg]
      simp [dropFirstPic, hg, hr]

theorem isPicT_true_iff (pt : PictureType) (d : Bytes) :
    isPicT pt d = true ↔ ∃ pic, Picture.from_base64 d = .ok pic ∧ pic.picture_type = pt := by
  rw [isPicT]
  rcases hd : Picture.from_base64 d with e | pic
  · simp
  · simp

theorem removeFirstPic_none (pt : PictureType) (l : List Bytes)
    (h : ∀ d ∈ l, isPicT pt d = false) : removeFirstPic pt l = none := by
  induction l with
  | nil => rfl
  | cons d rest ih =>
    have hd := h d (by simp)
    have ih' := ih (fun x hx => h x (by simp [hx]))
    rw [isPicT] at hd
    rcases hfb : Picture.from_base64 d with e | pic
    · simp only [removeFirstPic, hfb, ih']
      rfl
    · rw [hfb] at hd
      simp only [decide_eq_false_iff_not] at hd
      simp only [removeFirstPic, hfb, if_neg hd, ih']
      rfl

theorem removeFirstPic_some_count (pt : PictureType) (l : List Bytes) :
    ∀ pic rest, removeFirstPic pt l = some (pic, rest) →
      l.countP (isPicT pt) = rest.countP (isPicT pt) + 1 := by
  induction l with
  | nil => intro pic rest h; simp [removeFirstPic] at h
  | cons d tl ih =>
    intro pic rest h
    rcases hfb : Picture.from_base64 d with e | p
    · have hd : isPicT pt d = false := by rw [isPicT, hfb]
      simp only [removeFirstPic, hfb] at h
      rcases hr : removeFirstPic pt tl with - | ⟨pic1, rest1⟩
      · rw [hr] at h; simp at h
      · rw [hr] at h
        simp only [Option.map_some', Option.some.injEq, Prod.mk.injEq] at h
        obtain ⟨h1, h2⟩ := h
        subst h1
        subst h2
        have hcc := ih pic1 rest1 hr
        simp [List.countP_cons, hd]
        exact hcc
    · by_cases hty : p.picture_type = pt
      · have hd : isPicT pt d = true := (isPicT_true_iff pt d).mpr ⟨p, hfb, hty⟩
        simp only [removeFirstPic, hfb, if_pos hty, Option.some.injEq, Prod.mk.injEq] at h
        obtain ⟨h1, h2⟩ := h
        subst h2
        simp only [List.countP_cons, hd]
        simp
      · have hd : isPicT pt d = false := by
          rw [isPicT, hfb]
          simpa using hty
        simp only [removeFirstPic, hfb, if_neg hty] at h
        rcases hr : removeFirstPic pt tl with - | ⟨pic1, rest1⟩
        · rw [hr] at h; simp at h
        · rw [hr] at h
          simp only [Option.map_some', Option.some.injEq, Prod.mk.injEq] at h
          obtain ⟨h1, h2⟩ := h
          subst h1
          subst h2
          have hcc := ih pic1 rest1 hr
          simp [List.countP_cons, hd]
          exact hcc

theorem removeFirstPic_eq_none_count (pt : PictureType) (l : List Bytes)
    (h : removeFirstPic pt l = none) : l.countP (isPicT pt) = 0 := by
  induction l with
  | nil => rfl
  | cons d tl ih =>
    rcases hfb : Picture.from_base64 d with e | p
    · simp only [removeFirstPic, hfb] at h
      have hd : isPicT pt d = false := by rw [isPicT, hfb]
      rcases hr : removeFirstPic pt tl with - | q
      · simp [List.countP_cons, hd, ih hr]
      · rw [hr] at h; simp at h
    · by_cases hty : p.picture_type = pt
      · simp only [removeFirstPic, hfb, if_pos hty] at h
        simp at h
      · simp only [removeFirstPic, hfb, if_neg hty] at h
        have hd : isPicT pt d = false := by
          rw [isPicT, hfb]
          simpa using hty
        rcases hr : removeFirstPic pt tl with - | q
        · simp [List.countP_cons, hd, ih hr]
        · rw [hr] at h; simp at h

theorem dropFirstPic_count_zero (pt : PictureType) (l : List Bytes)
    (h : l.countP (isPicT pt) ≤ 1) : (dropFirstPic pt l).countP (isPicT pt) = 0 := by
  rcases hr : removeFirstPic pt l with - | ⟨pic, rest⟩
  · simp only [dropFirstPic, hr]
    exact removeFirstPic_eq_none_count pt l hr
  · simp only [dropFirstPic, hr]
    have := removeFirstPic_some_count pt l pic rest hr
    omega

theorem dropFirstPic_some (pt : PictureType) (l : List Bytes)
    (q : Picture × List Bytes) (h : removeFirstPic pt l = some q) :
    dropFirstPic pt l = q.2 := by
  rw [dropFirstPic, h]

theorem removeFirstPic_append_left (pt : PictureType) (xs l : List Bytes)
    (h : ∀ d ∈ xs, isPicT pt d = false) :
    removeFirstPic pt (xs ++ l) =
      (removeFirstPic pt l).map (fun q => (q.1, xs ++ q.2)) := by
  induction xs with
  | nil =>
    simp only [List.nil_append]
    rcases hr : removeFirstPic pt l with - | q <;> simp
  | cons d xs ih =>
    have hd := h d (by simp)
    have ih' := ih (fun x hx => h x (by simp [hx]))
    rw [isPicT] at hd
    rcases hfb : Picture.from_base64 d with e | p
    · simp only [List.cons_append, removeFirstPic, hfb, ih']
      rcases hr : removeFirstPic pt l with - | q <;> simp [ih', hr]
    · rw [hfb] at hd
      simp only [decide_eq_false_iff_not] at hd
      simp only [List.cons_append, removeFirstPic, hfb, if_neg hd, ih']
      rcases hr : removeFirstPic pt l with - | q <;> simp [ih', hr]

theorem removeFirstPic_cons_hit (pt : PictureType) (d : Bytes) (l : List Bytes)
    (pic : Picture) (hfb : Picture.from_base64 d = .ok pic)
    (hty : pic.picture_type = pt) :
    removeFirstPic pt (d :: l) = some (pic, l) := by
  simp only [removeFirstPic, hfb, if_pos hty]

theorem findFirstPic_append_left (pt : PictureType) (xs l : List Bytes)
    (h : ∀ d ∈ xs, isPicT pt d = false) :
    findFirstPic pt (xs ++ l) = findFirstPic pt l := by
  induction xs with
  | nil => rfl
  | cons d xs ih =>
    have hd := h d (by simp)
    have ih' := ih (fun x hx => h x (by simp [hx]))
    rw [isPicT] at hd
    rcases hfb : Picture.from_base64 d with e | p
    · simp only [List.cons_append, findFirstPic, hfb]
      exact ih'
    · rw [hfb] at hd
      simp only [decide_eq_false_iff_not] at hd
      simp only [List.cons_append, findFirstPic, hfb, if_neg hd]
      exact ih'

theorem findFirstPic_cons_hit (pt : PictureType) (d : Bytes) (l : List Bytes)
    (pic : Picture) (hfb : Picture.from_base64 d = .ok pic)
    (hty : pic.picture_type = pt) :
    findFirstPic pt (d :: l) = some pic := by
  simp only [findFirstPic, hfb, if_pos hty]

theorem get_picture_type_eq (t : Tag) (pt : PictureType) :
    t.get_picture_type pt = findFirstPic pt (picList t) := by
  rw [Tag.get_picture_type, picList]
  rcases hg : mapGet t.comments PICTURE_BLOCK_TAG with - | vals
  · rfl
  · rfl

theorem pictures_eq (t : Tag) :
    t.pictures = (picList t).filterMap (fun d => (Picture.from_base64 d).toOption) := by
  rw [Tag.pictures, picList]
  rcases hg : mapGet t.comments PICTURE_BLOCK_TAG with - | vals
  · rfl
  · rfl

theorem pictures_filter_count (pt : PictureType) (vals : List Bytes) :
    ((vals.filterMap (fun d => (Picture.from_base64 d).toOption)).filter
      (fun q => decide (q.picture_type = pt))).length = vals.countP (isPicT pt) := by
  induction vals with
  | nil => rfl
  | cons d vals ih =>
    rcases hfb : Picture.from_base64 d with e | p
    · have hd : isPicT pt d = false := by rw [isPicT, hfb]
      have ht : (Picture.from_base64 d).toOption = none := by rw [hfb]; rfl
      simp only [List.filterMap_cons, ht, List.countP_cons, hd]
      simp [ih]
    · by_cases hty : p.picture_type = pt
      · have hd : isPicT pt d = true := (isPicT_true_iff pt d).mpr ⟨p, hfb, hty⟩
        have ht : (Picture.from_base64 d).toOption = some p := by rw [hfb]; rfl
        simp only [List.filterMap_cons, ht, List.countP_cons, hd, List.filter_cons]
        simp [ih, hty]
      · have hd : isPicT pt d = false := by
          rw [isPicT, hfb]
          simpa using hty
        have ht : (Picture.from_base64 d).toOption = some p := by rw [hfb]; rfl
        simp only [List.filterMap_cons, ht, List.countP_cons, hd, List.filter_cons]
        simp [ih, hty]

theorem add_picture_picList (t : Tag) (p : Picture) (s : Bytes)
    (hb : p.to_base64 = .ok s) :
    picList ((t.add_picture p).2) = dropFirstPic p.picture_type (picList t) ++ [s] := by
  have hfst := remove_picture_type_fst t p.picture_type
  have hsnd := remove_picture_type_picList t p.picture_type
  rcases hrm : t.remove_picture_type p.picture_type with ⟨r, t1⟩
  rw [hrm] at hfst hsnd
  simp only at hfst hsnd
  subst hfst
  simp only [Tag.add_picture, hrm, hb]
  rw [picList_add_one_pic, hsnd]

/-! Claim theorems. -/

/-- Claim C1: for every Picture whose mime type, description and data each
have byte length at most 2^32 - 1 (and whose fields satisfy the Rust
representation invariant of String and Vec u8), decoding the encoding is
the identity: from_bytes after to_bytes succeeds and returns the picture,
and from_base64 after to_base64 succeeds and returns the picture. -/
theorem C1_picture_roundtrip (p : Picture) (hwf : p.WF) (hsz : p.SizeOK) :
    (∃ bs, p.to_bytes = .ok bs ∧ Picture.from_bytes bs = .ok p) ∧
    (∃ s, p.to_base64 = .ok s ∧ Picture.from_base64 s = .ok p) := by
  constructor
  · exact ⟨_, to_bytes_ok p hsz, from_bytes_to_bytes p _ hwf (to_bytes_ok p hsz)⟩
  · obtain ⟨s, hs⟩ := to_base64_ok p hsz
    exact ⟨s, hs, from_base64_to_base64 p s hwf hs⟩

/-- Witness for C1 at a concrete picture. -/
theorem C1_picture_roundtrip_witness :
    (∃ bs, Picture.to_bytes ⟨.CoverFront, [105, 109, 103], [], [1, 2, 3]⟩ = .ok bs ∧
      Picture.from_bytes bs = .ok ⟨.CoverFront, [105, 109, 103], [], [1, 2, 3]⟩) ∧
    (∃ s, Picture.to_base64 ⟨.CoverFront, [105, 109, 103], [], [1, 2, 3]⟩ = .ok s ∧
      Picture.from_base64 s = .ok ⟨.CoverFront, [105, 109, 103], [], [1, 2, 3]⟩) :=
  C1_picture_roundtrip ⟨.CoverFront, [105, 109, 103], [], [1, 2, 3]⟩
    (by decide) (by decide)

/-- Claim C2 counterexample: starting from Tag new and applying the public
operation add_many with an empty values list leaves the key bound to an
empty list, so the claimed invariant fails. -/
theorem C2_counterexample :
    noEmptyVals (([TagOp.add_many ⟨[97]⟩ []].foldl Tag.applyOp
      (Tag.new [] [])).comments) = false := by
  decide

/-- Claim C2 amended: under the same operations, every key other than the
reserved picture key is never bound to an empty list, provided every
add_many and set_entries call supplies a nonempty values list. -/
theorem C2_no_empty_amended (v : Bytes) (cs : List (Bytes × Bytes)) (ops : List TagOp)
    (hops : ∀ op ∈ ops, op.nonEmptyInput) :
    noEmptyValsExceptPictures ((ops.foldl Tag.applyOp (Tag.new v cs)).comments) = true := by
  rw [nepb_iff]
  refine nep_foldl ops (Tag.new v cs) hops ?_
  intro kv hkv
  exact Or.inr (new_nonempty v cs kv hkv)

/-- Witness for the amended C2 on a concrete operation sequence. -/
theorem C2_no_empty_amended_witness :
    noEmptyValsExceptPictures
      (([TagOp.add_one ⟨[97]⟩ [120], TagOp.remove_picture_type .Other,
        TagOp.add_many ⟨[98]⟩ [[121]]].foldl Tag.applyOp
        (Tag.new [] [([66], [121])])).comments) = true :=
  C2_no_empty_amended [] [([66], [121])] _ (by decide)

/-- Claim C3: when serializing the tag fails with the too big error, write_to
returns that error and the target contents are exactly what they were
before the call, for every page assembly of the external writer. -/
theorem C3_write_to_atomic (assemble : List WrittenPacket → Bytes) (t : Tag)
    (p1 p2 : Packet) (rest : List Packet) (contents : Bytes)
    (h : t.to_packet_data = .error .TooBigError) :
    t.write_to assemble (p1 :: p2 :: rest) contents = (.error .TooBigError, contents) := by
  simp [Tag.write_to, h]

/-- Witness for C3: a vendor string of 2^32 bytes triggers the error and the
target keeps its prior contents. -/
theorem C3_write_to_atomic_witness :
    Tag.write_to (fun _ => [9, 9]) ⟨List.replicate 4294967296 0, []⟩
      [⟨[1], 0, 0, false, false⟩, ⟨[2], 0, 0, false, true⟩] [5] =
      (.error .TooBigError, [5]) :=
  C3_write_to_atomic _ _ _ _ _ _ (by
    unfold Tag.to_packet_data
    rw [if_pos (by rw [List.length_replicate])])

/-- Claim C4: a successful to_bytes output is exactly the concatenation of
the big-endian type ordinal, length-prefixed mime and description, 16 zero
reserved bytes and the length-prefixed data; and from_bytes accepts the
same layout with the 16 reserved bytes holding arbitrary content. -/
theorem C4_layout (p : Picture) (bs reserved : Bytes) (hwf : p.WF)
    (hok : p.to_bytes = .ok bs) (hres : reserved.length = 16) :
    bs = u32BE p.picture_type.toU32 ++ u32BE p.mime_type.length ++ p.mime_type ++
      u32BE p.description.length ++ p.description ++ List.replicate 16 0 ++
      u32BE p.data.length ++ p.data ∧
    Picture.from_bytes (u32BE p.picture_type.toU32 ++ u32BE p.mime_type.length ++
      p.mime_type ++ u32BE p.description.length ++ p.description ++ reserved ++
      u32BE p.data.length ++ p.data) = .ok p := by
  obtain ⟨⟨s1, s2, s3⟩, hbs⟩ := to_bytes_eq_ok p bs hok
  obtain ⟨hum, -, hud, -, -⟩ := hwf
  refine ⟨hbs, ?_⟩
  have := from_bytes_layout p.picture_type p.mime_type p.description p.data reserved
    s1 s2 s3 hum hud hres
  simpa [List.append_assoc] using this

/-- Witness for C4 at a concrete picture, with nonzero reserved bytes. -/
theorem C4_layout_witness :
    (u32BE (3 : Nat) ++ u32BE 1 ++ [105] ++ u32BE 1 ++ [100] ++
        List.replicate 16 0 ++ u32BE 2 ++ [9, 255]) =
      u32BE (PictureType.CoverFront).toU32 ++ u32BE ([105] : Bytes).length ++ [105] ++
        u32BE ([100] : Bytes).length ++ [100] ++ List.replicate 16 0 ++
        u32BE ([9, 255] : Bytes).length ++ [9, 255] ∧
    Picture.from_bytes (u32BE (PictureType.CoverFront).toU32 ++
        u32BE ([105] : Bytes).length ++ [105] ++ u32BE ([100] : Bytes).length ++ [100] ++
        List.replicate 16 7 ++ u32BE ([9, 255] : Bytes).length ++ [9, 255]) =
      .ok ⟨.CoverFront, [105], [100], [9, 255]⟩ :=
  C4_layout ⟨.CoverFront, [105], [100], [9, 255]⟩ _ (List.replicate 16 7)
    (by decide) (by decide) (by simp)

/-- Claim C5: from_u32 returns the enumerator with ordinal n for every n at
most 20 and the invalid picture type error for every n above 20. -/
theorem C5_from_u32 (n : Nat) :
    (n ≤ 20 → ∃ t, PictureType.from_u32 n = .ok t ∧ t.toU32 = n) ∧
    (20 < n → PictureType.from_u32 n = .error .InvalidPictureType) := by
  constructor
  · intro h
    refine ⟨PictureType.ofOrdinal n, ?_, ?_⟩
    · rw [PictureType.from_u32, if_neg (by omega)]
    · interval_cases n <;> rfl
  · intro h
    rw [PictureType.from_u32, if_pos (by omega)]

/-- Witness for C5 at ordinals 3 and 21. -/
theorem C5_from_u32_witness :
    (∃ t, PictureType.from_u32 3 = .ok t ∧ t.toU32 = 3) ∧
    PictureType.from_u32 21 = .error .InvalidPictureType :=
  ⟨(C5_from_u32 3).1 (by decide), (C5_from_u32 21).2 (by decide)⟩

/-- Claim C6: after add_picture of p1 then of p2 sharing one picture type,
get_picture_type of that type returns p2 and pictures holds exactly one
entry of that type, provided the starting tag stores at most one value
decoding to that type (the invariant the accessors maintain). -/
theorem C6_add_picture_unique (t : Tag) (p1 p2 : Picture)
    (hty : p1.picture_type = p2.picture_type)
    (hwf1 : p1.WF) (hsz1 : p1.SizeOK) (hwf2 : p2.WF) (hsz2 : p2.SizeOK)
    (hinv : (picList t).countP (isPicT p2.picture_type) ≤ 1) :
    ((t.add_picture p1).2.add_picture p2).2.get_picture_type p2.picture_type = some p2 ∧
    ((((t.add_picture p1).2.add_picture p2).2.pictures).filter
      (fun q => decide (q.picture_type = p2.picture_type))).length = 1 := by
  obtain ⟨s1, hs1⟩ := to_base64_ok p1 hsz1
  obtain ⟨s2, hs2⟩ := to_base64_ok p2 hsz2
  have hd1 : Picture.from_base64 s1 = .ok p1 := from_base64_to_base64 p1 s1 hwf1 hs1
  have hd2 : Picture.from_base64 s2 = .ok p2 := from_base64_to_base64 p2 s2 hwf2 hs2
  have ht2 : isPicT p2.picture_type s2 = true :=
    (isPicT_true_iff _ s2).mpr ⟨p2, hd2, rfl⟩
  have hL1 : picList ((t.add_picture p1).2) =
      dropFirstPic p2.picture_type (picList t) ++ [s1] := by
    have := add_picture_picList t p1 s1 hs1
    rwa [hty] at this
  have hz : (dropFirstPic p2.picture_type (picList t)).countP (isPicT p2.picture_type) = 0 :=
    dropFirstPic_count_zero _ _ hinv
  have hall : ∀ d ∈ dropFirstPic p2.picture_type (picList t),
      isPicT p2.picture_type d = false := by
    intro d hd
    have := List.countP_eq_zero.mp hz
    simpa using this d hd
  have hL2 : picList (((t.add_picture p1).2.add_picture p2).2) =
      dropFirstPic p2.picture_type (picList ((t.add_picture p1).2)) ++ [s2] :=
    add_picture_picList _ p2 s2 hs2
  have hrm : removeFirstPic p2.picture_type
      (dropFirstPic p2.picture_type (picList t) ++ [s1]) =
      some (p1, dropFirstPic p2.picture_type (picList t) ++ []) := by
    rw [removeFirstPic_append_left _ _ [s1] hall,
      removeFirstPic_cons_hit _ s1 [] p1 hd1 hty]
    rfl
  have hdrop : dropFirstPic p2.picture_type (picList ((t.add_picture p1).2)) =
      dropFirstPic p2.picture_type (picList t) := by
    rw [hL1, dropFirstPic_some _ _ _ hrm]
    simp
  constructor
  · rw [get_picture_type_eq, hL2, hdrop, findFirstPic_append_left _ _ _ hall,
      findFirstPic_cons_hit _ s2 [] p2 hd2 rfl]
  · rw [pictures_eq, hL2, hdrop, pictures_filter_count, List.countP_append, hz]
    simp [ht2]

/-- Witness for C6 with two concrete front-cover pictures on a fresh tag. -/
theorem C6_add_picture_unique_witness :
    (((Tag.new [] []).add_picture ⟨.CoverFront, [], [], [1]⟩).2.add_picture
      ⟨.CoverFront, [], [], [2]⟩).2.get_picture_type
        (Picture.picture_type ⟨.CoverFront, [], [], [2]⟩) =
      some ⟨.CoverFront, [], [], [2]⟩ ∧
    (((((Tag.new [] []).add_picture ⟨.CoverFront, [], [], [1]⟩).2.add_picture
      ⟨.CoverFront, [], [], [2]⟩).2.pictures).filter
      (fun q => decide (q.picture_type =
        Picture.picture_type ⟨.CoverFront, [], [], [2]⟩))).length = 1 :=
  C6_add_picture_unique (Tag.new [] []) ⟨.CoverFront, [], [], [1]⟩
    ⟨.CoverFront, [], [], [2]⟩ rfl (by decide) (by decide) (by decide) (by decide)
    (by decide)

/-- Claim C6 counterexample: on a tag already holding two stored cover
front pictures (as other tools may write into the multimap), add_picture
of p1 then of p2 leaves get_picture_type returning p1, not p2, and two
stored entries of that type, so the claim fails without the at-most-one
precondition. -/
theorem C6_counterexample :
    ¬ ((((Tag.mk [] [(PICTURE_BLOCK_TAG,
        [base64Encode (u32BE 3 ++ u32BE 0 ++ u32BE 0 ++ List.replicate 16 0 ++
          u32BE 1 ++ [7]),
         base64Encode (u32BE 3 ++ u32BE 0 ++ u32BE 0 ++ List.replicate 16 0 ++
          u32BE 1 ++ [8])])]).add_picture
        ⟨.CoverFront, [], [], [1]⟩).2.add_picture
        ⟨.CoverFront, [], [], [2]⟩).2.get_picture_type .CoverFront =
          some ⟨.CoverFront, [], [], [2]⟩ ∧
      (((((Tag.mk [] [(PICTURE_BLOCK_TAG,
        [base64Encode (u32BE 3 ++ u32BE 0 ++ u32BE 0 ++ List.replicate 16 0 ++
          u32BE 1 ++ [7]),
         base64Encode (u32BE 3 ++ u32BE 0 ++ u32BE 0 ++ List.replicate 16 0 ++
          u32BE 1 ++ [8])])]).add_picture
        ⟨.CoverFront, [], [], [1]⟩).2.add_picture
        ⟨.CoverFront, [], [], [2]⟩).2.pictures).filter
        (fun q => decide (q.picture_type = PictureType.CoverFront))).length = 1) := by
  decide

/-- Claim C7: on a tag whose stored picture values hold exactly one
decodable picture, of type pt, the first remove_picture_type pt returns ok
some of that picture and the second returns ok none. -/
theorem C7_remove_twice (t : Tag) (pt : PictureType) (xs ys : List Bytes) (e : Bytes)
    (pic : Picture)
    (hget : mapGet t.comments PICTURE_BLOCK_TAG = some (xs ++ e :: ys))
    (hxs : ∀ d ∈ xs, (Picture.from_base64 d).toOption = none)
    (hys : ∀ d ∈ ys, (Picture.from_base64 d).toOption = none)
    (he : Picture.from_base64 e = .ok pic) (hpt : pic.picture_type = pt) :
    (t.remove_picture_type pt).1 = .ok (some pic) ∧
    ((t.remove_picture_type pt).2.remove_picture_type pt).1 = .ok none := by
  have hpl : picList t = xs ++ e :: ys := by rw [picList, hget]; rfl
  have hfx : ∀ d ∈ xs, isPicT pt d = false := by
    intro d hd
    rw [isPicT]
    rcases hfb : Picture.from_base64 d with err | p
    · rfl
    · have := hxs d hd
      rw [hfb] at this
      simp [Except.toOption] at this
  have hfy : ∀ d ∈ ys, isPicT pt d = false := by
    intro d hd
    rw [isPicT]
    rcases hfb : Picture.from_base64 d with err | p
    · rfl
    · have := hys d hd
      rw [hfb] at this
      simp [Except.toOption] at this
  have hrm : removeFirstPic pt (xs ++ e :: ys) = some (pic, xs ++ ys) := by
    rw [removeFirstPic_append_left pt xs _ hfx,
      removeFirstPic_cons_hit pt e ys pic he hpt]
    rfl
  constructor
  · rw [remove_picture_type_fst, hpl, hrm]
    rfl
  · rw [remove_picture_type_fst, remove_picture_type_picList, hpl]
    have hd : dropFirstPic pt (xs ++ e :: ys) = xs ++ ys := by
      simp only [dropFirstPic, hrm]
    rw [hd, removeFirstPic_none pt _ ?_]
    · rfl
    · intro d hdm
      rcases List.mem_append.mp hdm with hm | hm
      · exact hfx d hm
      · exact hfy d hm

/-- Witness for C7 on a concrete tag with one undecodable value and one
stored media picture. -/
theorem C7_remove_twice_witness :
    ((Tag.mk [] [(PICTURE_BLOCK_TAG,
        [[33], base64Encode (u32BE 6 ++ u32BE 0 ++ u32BE 0 ++
          List.replicate 16 0 ++ u32BE 0)])]).remove_picture_type .Media).1 =
      .ok (some ⟨.Media, [], [], []⟩) ∧
    (((Tag.mk [] [(PICTURE_BLOCK_TAG,
        [[33], base64Encode (u32BE 6 ++ u32BE 0 ++ u32BE 0 ++
          List.replicate 16 0 ++ u32BE 0)])]).remove_picture_type
        .Media).2.remove_picture_type .Media).1 = .ok none :=
  C7_remove_twice _ .Media [[33]] []
    (base64Encode (u32BE 6 ++ u32BE 0 ++ u32BE 0 ++ List.replicate 16 0 ++ u32BE 0))
    ⟨.Media, [], [], []⟩ (by decide) (by decide) (by decide) (by decide) (by decide)

/-- Claim C8: a parsed comment line without an equals sign makes read_from
fail with the malformed comment error carrying exactly that line, and when
every line holds an equals sign each is split at its first occurrence. -/
theorem C8_malformed_comment (first header : Packet) (rest : List Packet)
    (vendor : Bytes) (cs : List Bytes)
    (hfirst : opusHeadMagic.isPrefixOf first.data = true)
    (hdata : header.data = opusTagsMagic ++ (u32LE vendor.length ++ (vendor ++
      (u32LE cs.length ++ encodeComments cs))))
    (hv : validUtf8 vendor = true) (hvl : vendor.length < 4294967296)
    (hcnt : cs.length < 4294967296)
    (hwf : ∀ c ∈ cs, c.length < 4294967296 ∧ validUtf8 c = true) :
    (∀ good bad rest2, cs = good ++ bad :: rest2 → (∀ g ∈ good, 61 ∈ g) →
      ¬ 61 ∈ bad →
      Tag.read_from (first :: header :: rest) = .error (.MalformedComment bad)) ∧
    ((∀ c ∈ cs, 61 ∈ c) →
      Tag.read_from (first :: header :: rest) = .ok (Tag.new vendor (cs.map splitPair))) := by
  have hdrop : header.data.drop 8 = u32LE vendor.length ++ (vendor ++
      (u32LE cs.length ++ encodeComments cs)) := by
    rw [hdata]
    exact List.drop_left' opusTagsMagic_length
  have hread : Tag.read_from (first :: header :: rest) =
      parseCommentHeader (header.data.drop 8) := by
    simp [Tag.read_from, hfirst]
  constructor
  · intro good bad rest2 hcs hgood hbad
    subst hcs
    rw [hread, hdrop, parseCommentHeader_encode vendor _ hv hvl hcnt,
      parseComments_bad good bad rest2
        (fun g hg => ⟨(hwf g (by simp [hg])).1, (hwf g (by simp [hg])).2, hgood g hg⟩)
        (hwf bad (by simp)).1 (hwf bad (by simp)).2 hbad]
  · intro hall
    rw [hread, hdrop, parseCommentHeader_encode vendor _ hv hvl hcnt,
      parseComments_ok cs (fun c hc => ⟨(hwf c hc).1, (hwf c hc).2, hall c hc⟩)]

/-- Witness for C8: one malformed stream and one well-formed stream. -/
theorem C8_malformed_comment_witness :
    Tag.read_from [⟨opusHeadMagic, 0, 0, false, false⟩,
      ⟨opusTagsMagic ++ (u32LE ([118] : Bytes).length ++ ([118] ++
        (u32LE ([[84]] : List Bytes).length ++ encodeComments [[84]]))),
        0, 0, false, true⟩] = .error (.MalformedComment [84]) ∧
    Tag.read_from [⟨opusHeadMagic, 0, 0, false, false⟩,
      ⟨opusTagsMagic ++ (u32LE ([118] : Bytes).length ++ ([118] ++
        (u32LE ([[84, 61, 83]] : List Bytes).length ++ encodeComments [[84, 61, 83]]))),
        0, 0, false, true⟩] = .ok (Tag.new [118] ([[84, 61, 83]].map splitPair)) :=
  ⟨(C8_malformed_comment _ _ [] [118] [[84]] (by decide) rfl (by decide) (by decide)
      (by decide) (by decide)).1 [] [84] [] rfl (by decide) (by decide),
   (C8_malformed_comment _ _ [] [118] [[84, 61, 83]] (by decide) rfl (by decide)
      (by decide) (by decide) (by decide)).2 (by decide)⟩

/-- Claim C9: from_bytes has a UTF-8 decode failure mode: a buffer with a
valid type ordinal (0) and a valid declared mime length (1 byte, present)
whose mime byte 255 is not valid UTF-8 fails with the UTF error. -/
theorem C9_utf8_failure :
    Picture.from_bytes [0, 0, 0, 0, 0, 0, 0, 1, 255] = .error .UTFError := by
  decide

/-- Claim C10: read_from never validates the OpusTags magic: any 8 bytes in
its place parse identically, so a well-formed remainder succeeds. -/
theorem C10_magic_not_validated (first header : Packet) (rest : List Packet)
    (magic vendor : Bytes) (cs : List Bytes)
    (hfirst : opusHeadMagic.isPrefixOf first.data = true)
    (hmagic : magic.length = 8)
    (hdata : header.data = magic ++ (u32LE vendor.length ++ (vendor ++
      (u32LE cs.length ++ encodeComments cs))))
    (hv : validUtf8 vendor = true) (hvl : vendor.length < 4294967296)
    (hcnt : cs.length < 4294967296)
    (hwf : ∀ c ∈ cs, c.length < 4294967296 ∧ validUtf8 c = true ∧ 61 ∈ c) :
    Tag.read_from (first :: header :: rest) = .ok (Tag.new vendor (cs.map splitPair)) := by
  have hdrop : header.data.drop 8 = u32LE vendor.length ++ (vendor ++
      (u32LE cs.length ++ encodeComments cs)) := by
    rw [hdata]
    exact List.drop_left' hmagic
  have hread : Tag.read_from (first :: header :: rest) =
      parseCommentHeader (header.data.drop 8) := by
    simp [Tag.read_from, hfirst]
  rw [hread, hdrop, parseCommentHeader_encode vendor cs hv hvl hcnt,
    parseComments_ok cs hwf]

/-- Witness for C10 with garbage in place of the OpusTags magic. -/
theorem C10_magic_not_validated_witness :
    Tag.read_from [⟨opusHeadMagic, 0, 0, false, false⟩,
      ⟨[1, 2, 3, 4, 5, 6, 7, 8] ++ (u32LE ([118] : Bytes).length ++ ([118] ++
        (u32LE ([[84, 61, 83]] : List Bytes).length ++ encodeComments [[84, 61, 83]]))),
        0, 0, false, true⟩] = .ok (Tag.new [118] ([[84, 61, 83]].map splitPair)) :=
  C10_magic_not_validated _ _ [] [1, 2, 3, 4, 5, 6, 7, 8] [118] [[84, 61, 83]]
    (by decide) (by decide) rfl (by decide) (by decide) (by decide) (by decide)

end OpusMeta
